import Mathlib

/-!
# Shallow embedding of the offchain timer scheduler

This file embeds `src/client/offchain/src/api/timer.rs`: the `TimerApi`
handle (`start_timer`), the comparator wrapper `TimerIdWithTimestamp`, and
the `TimerWorker` future's `poll` body, modelled as one pure drive-cycle
function over an explicit worker state, request channel and announcement
list.  Timestamps and durations are natural numbers of milliseconds; the
`futures_timer::Delay` primitive is modelled by the absolute time at which
it completes.
-/

namespace OffchainTimer

/-! Timestamps (`sp_core::offchain::Timestamp`, milliseconds since the
epoch) and durations (`sp_core::offchain::Duration`, a span of
milliseconds) are both modelled as `Nat`. -/

/-- `sp_core::offchain::TimerId`: an opaque identifier wrapping a counter. -/
structure TimerId where
  val : Nat
deriving DecidableEq

/-- Modelled from the spec: `Timestamp::add` of `sp_core` (not under `src/`),
"computes `deadline = now() + duration`" — absolute time plus a duration. -/
def tsAdd (t : Nat) (d : Nat) : Nat := t + d

/-- Modelled from the spec: `Timestamp::diff` of `sp_core` (not under `src/`),
the unsigned difference of two timestamps, saturating at zero. -/
def tsDiff (a b : Nat) : Nat := a - b

/-- Modelled from the spec: `super::timestamp::timestamp_from_now` (not under
`src/`), the duration from the current time to a target timestamp. -/
def timestamp_from_now (now t : Nat) : Nat := tsDiff t now

/-- The comparator wrapper stored in the worker's priority queue
(`struct TimerIdWithTimestamp`). -/
structure TimerIdWithTimestamp where
  key : Nat
  id : TimerId
deriving DecidableEq

namespace TimerIdWithTimestamp

/-- `impl PartialEq for TimerIdWithTimestamp`: equality delegates to the
`key` timestamps and ignores the ids. -/
def beq (a b : TimerIdWithTimestamp) : Bool := a.key == b.key

/-- `impl Ord for TimerIdWithTimestamp`: ordering delegates to the `key`
timestamps and ignores the ids. -/
def cmp (a b : TimerIdWithTimestamp) : Ordering := compare a.key b.key

/-- `impl PartialOrd for TimerIdWithTimestamp`: delegates to the keys'
`partial_cmp`, which on timestamps is total. -/
def pcmp (a b : TimerIdWithTimestamp) : Option Ordering := some (compare a.key b.key)

end TimerIdWithTimestamp

/-- One step of `BinaryHeap<Reverse<TimerIdWithTimestamp>>::pop`: remove an
element whose `key` is minimal (`Reverse` turns the max-heap into a min-heap
on `key`; ties are broken arbitrarily by the heap, here by position). -/
def popMin : List TimerIdWithTimestamp → Option (TimerIdWithTimestamp × List TimerIdWithTimestamp)
  | [] => none
  | e :: es =>
    match popMin es with
    | none => some (e, es)
    | some (m, rest) => if e.key ≤ m.key then some (e, es) else some (m, e :: rest)

/-- `BinaryHeap::peek` through the `Reverse` wrapper: an element of minimal
`key`, if any. -/
def peekMin (heap : List TimerIdWithTimestamp) : Option TimerIdWithTimestamp :=
  (popMin heap).map (fun p => p.1)

/-- The deadline of the earliest queued entry, if any. -/
def peekMinKey (heap : List TimerIdWithTimestamp) : Option Nat :=
  (peekMin heap).map TimerIdWithTimestamp.key

/-- The drain loop of `TimerWorker::poll`, fuelled for structural recursion:
`while let Some(true) = this.ids.peek().map(|x| x.0.key <= now)` pop the
minimal entry and send its id.  Returns the announced ids in pop order and
the remaining heap. -/
def drainLoop (now : Nat) : Nat → List TimerIdWithTimestamp → List TimerId × List TimerIdWithTimestamp
  | 0, heap => ([], heap)
  | fuel + 1, heap =>
    match popMin heap with
    | none => ([], heap)
    | some (e, rest) =>
      if e.key ≤ now then
        let p := drainLoop now fuel rest
        (e.id :: p.1, p.2)
      else ([], heap)

/-- "Process elapsed timers": drain every queued entry whose deadline is at
or before `now`, announcing each popped id. -/
def drainDue (now : Nat) (heap : List TimerIdWithTimestamp) : List TimerId × List TimerIdWithTimestamp :=
  drainLoop now heap.length heap

/-- The request channel from the `TimerApi`: pending `(id, deadline)`
messages plus whether all senders are gone (`Poll::Ready(None)`). -/
structure Chan where
  msgs : List (TimerId × Nat)
  closed : Bool
deriving DecidableEq

/-- The mutable state of `TimerWorker`: the optional `delay` stores the
timestamp it was armed for together with the absolute time the underlying
`Delay` future completes; `ids` is the priority queue. -/
structure TimerWorker where
  delay : Option (Nat × Nat)
  ids : List TimerIdWithTimestamp
deriving DecidableEq

/-- Everything one invocation of `TimerWorker::poll` produces: whether it
returned `Poll::Ready(())`, the ids sent to `ready_ids` in order, whether
`wake_by_ref` was requested, and the successor worker and channel states. -/
structure CycleResult where
  ready : Bool
  announced : List TimerId
  woke : Bool
  worker : TimerWorker
  chan : Chan
deriving DecidableEq

/-- Phase 1 of `poll`: poll the underlying `Delay`; if it completed
(its completion time has passed), `this.delay.take()`. -/
def sleepCheck (now : Nat) : Option (Nat × Nat) → Option (Nat × Nat)
  | some (k, fireAt) => if fireAt ≤ now then none else some (k, fireAt)
  | none => none

/-- Phase 3 of `poll`: `match (this.ids.peek(), this.delay.as_ref())` — when
the queue is non-empty and no delay exists, arm a new `Delay` for the
duration from now to the minimal deadline and `wake_by_ref`. -/
def armPhase (now : Nat) (heap : List TimerIdWithTimestamp) :
    Option (Nat × Nat) → Option (Nat × Nat) × Bool
  | none =>
    match peekMin heap with
    | some e => (some (e.key, now + timestamp_from_now now e.key), true)
    | none => (none, false)
  | some d => (some d, false)

/-- The outcome of phase 4 (`Stream::poll_next` on `from_api`). -/
structure IngestResult where
  ready : Bool
  woke : Bool
  heap : List TimerIdWithTimestamp
  delay : Option (Nat × Nat)
  chan : Chan
deriving DecidableEq

/-- Phase 4 of `poll`: poll the request channel once.  A received
`(id, timestamp)` is pushed onto the heap; if a delay exists and
`earliest.diff(&timestamp).millis() > 0` the `Delay` is reset to the
duration from now to the new deadline (the stored `earliest` timestamp is
not updated by the source), and `wake_by_ref` is called.  An empty closed
channel yields `Poll::Ready(None)`, terminating the worker. -/
def ingest (now : Nat) (heap : List TimerIdWithTimestamp)
    (d : Option (Nat × Nat)) (ch : Chan) : IngestResult :=
  match ch.msgs with
  | (id, timestamp) :: rest =>
    let heap2 := { key := timestamp, id := id : TimerIdWithTimestamp } :: heap
    let d2 := match d with
      | some (earliest, fireAt) =>
        if 0 < tsDiff earliest timestamp then
          some (earliest, now + timestamp_from_now now timestamp)
        else
          some (earliest, fireAt)
      | none => none
    { ready := false, woke := true, heap := heap2, delay := d2,
      chan := { msgs := rest, closed := ch.closed } }
  | [] =>
    if ch.closed then
      { ready := true, woke := false, heap := heap, delay := d, chan := ch }
    else
      { ready := false, woke := false, heap := heap, delay := d, chan := ch }

/-- One invocation of `TimerWorker::poll` at current time `now`: sleep
completion check, drain of due entries, re-arm, ingest — in the source's
order. -/
def poll (now : Nat) (s : TimerWorker) (ch : Chan) : CycleResult :=
  let d1 := sleepCheck now s.delay
  let dr := drainDue now s.ids
  let ar := armPhase now dr.2 d1
  let ing := ingest now dr.2 ar.1 ch
  { ready := ing.ready, announced := dr.1, woke := ar.2 || ing.woke,
    worker := { delay := ing.delay, ids := ing.heap }, chan := ing.chan }

/-- The handle side: `TimerApi` holds only the id counter. -/
structure TimerApi where
  next_id : TimerId
deriving DecidableEq

/-- What one `TimerApi::start_timer` call yields: the returned id, the
successor handle state, and the message sent on the request channel. -/
structure StartTimerResult where
  ret : TimerId
  api : TimerApi
  sent : TimerId × Nat
deriving DecidableEq

/-- `TimerApi::start_timer(duration)`: take the current id, bump the
counter, compute `timestamp::now().add(duration)`, send `(id, timestamp)`
to the worker, return the id.  The call is a pure state transition plus one
message: it never waits on the worker. -/
def start_timer (api : TimerApi) (now : Nat) (duration : Nat) : StartTimerResult :=
  let id := api.next_id
  let next : TimerApi := { next_id := { val := api.next_id.val + 1 } }
  let timestamp := tsAdd now duration
  { ret := id, api := next, sent := (id, timestamp) }

/-- The `timer` constructor: a fresh handle with counter `TimerId(0)` and a
worker with no delay and an empty queue, joined by a fresh (empty, open)
channel. -/
def timer : TimerApi × TimerWorker :=
  ({ next_id := { val := 0 } }, { delay := none, ids := [] })

/-- The handle state after `n` calls of `start_timer`, where `f k` gives the
clock reading and requested duration of call `k`. -/
def apiAfter (f : Nat → Nat × Nat) : Nat → TimerApi
  | 0 => (timer).1
  | n + 1 => (start_timer (apiAfter f n) (f n).1 (f n).2).api

/-- The id returned by the `n`-th `start_timer` call (counting from 0). -/
def nthTimerId (f : Nat → Nat × Nat) (n : Nat) : TimerId :=
  (start_timer (apiAfter f n) (f n).1 (f n).2).ret

end OffchainTimer

namespace OffchainTimer

/-! ## Heap lemmas -/

theorem popMin_eq_none_iff {l : List TimerIdWithTimestamp} : popMin l = none ↔ l = [] := by
  cases l with
  | nil => simp [popMin]
  | cons a as =>
    cases hm : popMin as with
    | none => simp [popMin, hm]
    | some p =>
      obtain ⟨m, r⟩ := p
      by_cases hk : a.key ≤ m.key <;> simp [popMin, hm, hk]

theorem popMin_perm : ∀ {l : List TimerIdWithTimestamp} {e : TimerIdWithTimestamp}
    {rest : List TimerIdWithTimestamp}, popMin l = some (e, rest) → l.Perm (e :: rest) := by
  intro l
  induction l with
  | nil => intro e rest h; simp [popMin] at h
  | cons a as ih =>
    intro e rest h
    cases hm : popMin as with
    | none =>
      simp only [popMin, hm, Option.some.injEq, Prod.mk.injEq] at h
      obtain ⟨rfl, rfl⟩ := h
      exact List.Perm.refl _
    | some p =>
      obtain ⟨m, r⟩ := p
      simp only [popMin, hm] at h
      by_cases hk : a.key ≤ m.key
      · rw [if_pos hk] at h
        simp only [Option.some.injEq, Prod.mk.injEq] at h
        obtain ⟨rfl, rfl⟩ := h
        exact List.Perm.refl _
      · rw [if_neg hk] at h
        simp only [Option.some.injEq, Prod.mk.injEq] at h
        obtain ⟨rfl, rfl⟩ := h
        exact ((ih hm).cons a).trans (List.Perm.swap m a r)

theorem popMin_length {l : List TimerIdWithTimestamp} {e : TimerIdWithTimestamp}
    {rest : List TimerIdWithTimestamp} (h : popMin l = some (e, rest)) :
    rest.length + 1 = l.length := by
  have := (popMin_perm h).length_eq
  simpa using this.symm

theorem popMin_key_le : ∀ {l : List TimerIdWithTimestamp} {e : TimerIdWithTimestamp}
    {rest : List TimerIdWithTimestamp}, popMin l = some (e, rest) →
    ∀ x ∈ l, e.key ≤ x.key := by
  intro l
  induction l with
  | nil => intro e rest h; simp [popMin] at h
  | cons a as ih =>
    intro e rest h x hx
    cases hm : popMin as with
    | none =>
      have has : as = [] := popMin_eq_none_iff.mp hm
      subst has
      simp only [popMin, Option.some.injEq, Prod.mk.injEq] at h
      obtain ⟨rfl, rfl⟩ := h
      simp only [List.mem_singleton] at hx
      subst hx
      exact le_refl _
    | some p =>
      obtain ⟨m, r⟩ := p
      simp only [popMin, hm] at h
      have ihm := ih hm
      by_cases hk : a.key ≤ m.key
      · rw [if_pos hk] at h
        simp only [Option.some.injEq, Prod.mk.injEq] at h
        obtain ⟨rfl, rfl⟩ := h
        rcases List.mem_cons.mp hx with rfl | hx2
        · exact le_refl _
        · exact le_trans hk (ihm x hx2)
      · rw [if_neg hk] at h
        simp only [Option.some.injEq, Prod.mk.injEq] at h
        obtain ⟨rfl, rfl⟩ := h
        rcases List.mem_cons.mp hx with rfl | hx2
        · exact le_of_not_le hk
        · exact ihm x hx2

/-! ## Drain characterization: the drain loop announces exactly the ids of
the entries whose deadline is at or before `now`, and keeps the rest. -/

theorem drainLoop_perm (now : Nat) : ∀ (fuel : Nat) (heap : List TimerIdWithTimestamp),
    heap.length ≤ fuel →
    (drainLoop now fuel heap).1.Perm
      ((heap.filter (fun x => decide (x.key ≤ now))).map TimerIdWithTimestamp.id) ∧
    (drainLoop now fuel heap).2.Perm
      (heap.filter (fun x => !decide (x.key ≤ now))) := by
  intro fuel
  induction fuel with
  | zero =>
    intro heap hlen
    have : heap = [] := List.length_eq_zero.mp (Nat.le_zero.mp hlen)
    subst this
    simp [drainLoop]
  | succ fuel ih =>
    intro heap hlen
    cases hm : popMin heap with
    | none =>
      have : heap = [] := popMin_eq_none_iff.mp hm
      subst this
      simp [drainLoop, popMin]
    | some p =>
      obtain ⟨e, rest⟩ := p
      have hperm := popMin_perm hm
      have hrest : rest.length ≤ fuel := by
        have := popMin_length hm
        omega
      by_cases hk : e.key ≤ now
      · have hIH := ih rest hrest
        have hfilter1 : (heap.filter (fun x => decide (x.key ≤ now))).Perm
            (e :: rest.filter (fun x => decide (x.key ≤ now))) := by
          have := hperm.filter (fun x => decide (x.key ≤ now))
          rwa [List.filter_cons_of_pos (by simpa using hk)] at this
        have hfilter2 : (heap.filter (fun x => !decide (x.key ≤ now))).Perm
            (rest.filter (fun x => !decide (x.key ≤ now))) := by
          have := hperm.filter (fun x => !decide (x.key ≤ now))
          rwa [List.filter_cons_of_neg (by simpa using hk)] at this
        constructor
        · simp only [drainLoop, hm, if_pos hk]
          exact ((hIH.1.cons e.id).trans
            ((hfilter1.map TimerIdWithTimestamp.id).symm))
        · simp only [drainLoop, hm, if_pos hk]
          exact hIH.2.trans hfilter2.symm
      · have hall : ∀ x ∈ heap, ¬ (x.key ≤ now) := by
          intro x hx hxle
          exact hk (le_trans (popMin_key_le hm x hx) hxle)
        constructor
        · simp only [drainLoop, hm, if_neg hk]
          have : heap.filter (fun x => decide (x.key ≤ now)) = [] := by
            simp only [List.filter_eq_nil_iff]
            intro x hx
            simpa using hall x hx
          simp [this]
        · simp only [drainLoop, hm, if_neg hk]
          have : heap.filter (fun x => !decide (x.key ≤ now)) = heap := by
            rw [List.filter_eq_self]
            intro x hx
            simpa using hall x hx
          rw [this]

theorem drainDue_fst_perm (now : Nat) (heap : List TimerIdWithTimestamp) :
    (drainDue now heap).1.Perm
      ((heap.filter (fun x => decide (x.key ≤ now))).map TimerIdWithTimestamp.id) :=
  (drainLoop_perm now heap.length heap le_rfl).1

theorem drainDue_snd_perm (now : Nat) (heap : List TimerIdWithTimestamp) :
    (drainDue now heap).2.Perm (heap.filter (fun x => !decide (x.key ≤ now))) :=
  (drainLoop_perm now heap.length heap le_rfl).2

end OffchainTimer

namespace OffchainTimer

/-! ## Claim theorems -/

/-- Claim C1 (code bug evaluation).  With the sleep armed for deadline 1000
(stored timestamp 1000, Delay completing at 1000), at time 0 a request with
the strictly earlier deadline 100 is ingested.  The source resets the Delay
(it now completes at 100) but never updates the stored armed deadline: the
pair keeps timestamp 1000 while the minimum deadline in the queue is 100,
so the stored armed deadline does not equal the new minimum observed at the
reset event. -/
theorem C1_reset_leaves_stored_deadline_stale :
    (poll 0 { delay := some (1000, 1000), ids := [{ key := 1000, id := { val := 0 } }] }
        { msgs := [({ val := 1 }, 100)], closed := false }).worker.delay = some (1000, 100) ∧
    peekMinKey (poll 0 { delay := some (1000, 1000), ids := [{ key := 1000, id := { val := 0 } }] }
        { msgs := [({ val := 1 }, 100)], closed := false }).worker.ids = some 100 ∧
    (1000 : Nat) ≠ 100 := by
  refine ⟨by decide, by decide, by decide⟩

/-- Claim C2 counterexample.  Two requests are available on the channel
without blocking, yet after one invocation of `poll` only the first has been
inserted into the priority queue; the second is still on the channel.  This
refutes the claim that a single drive cycle ingests every available
request. -/
theorem C2_counterexample_second_request_left_on_channel :
    (poll 0 { delay := none, ids := [] }
        { msgs := [({ val := 0 }, 50), ({ val := 1 }, 60)], closed := false }).worker.ids
      = [{ key := 50, id := { val := 0 } }] ∧
    (poll 0 { delay := none, ids := [] }
        { msgs := [({ val := 0 }, 50), ({ val := 1 }, 60)], closed := false }).chan.msgs
      = [({ val := 1 }, 60)] := by
  refine ⟨rfl, rfl⟩

/-- Claim C2 (amended).  In a single drive cycle the ingest phase polls the
request channel exactly once: it inserts the first available request into
the priority queue, leaves the remaining requests on the channel, requests
an immediate self-wake (so the remaining requests are ingested on
subsequent cycles), and returns `Poll::Pending`. -/
theorem C2_poll_ingests_one_request (now : Nat) (s : TimerWorker) (i : TimerId)
    (ts : Nat) (rest : List (TimerId × Nat)) (closed : Bool) :
    (poll now s { msgs := (i, ts) :: rest, closed := closed }).worker.ids
        = { key := ts, id := i } :: (drainDue now s.ids).2 ∧
    (poll now s { msgs := (i, ts) :: rest, closed := closed }).chan
        = { msgs := rest, closed := closed } ∧
    (poll now s { msgs := (i, ts) :: rest, closed := closed }).woke = true ∧
    (poll now s { msgs := (i, ts) :: rest, closed := closed }).ready = false := by
  refine ⟨?_, ?_, ?_, ?_⟩ <;> simp [poll, ingest]

/-- Claim C3.  Whatever the worker state and channel, every id announced by
a drive cycle belongs to a queued entry whose deadline is at or before the
cycle's current time: no timer id is announced before its deadline. -/
theorem C3_announced_only_when_due (now : Nat) (s : TimerWorker) (ch : Chan)
    (i : TimerId) (h : i ∈ (poll now s ch).announced) :
    ∃ e, e ∈ s.ids ∧ e.id = i ∧ e.key ≤ now := by
  have hann : (poll now s ch).announced = (drainDue now s.ids).1 := by
    simp [poll]
  rw [hann] at h
  have hperm := drainDue_fst_perm now s.ids
  have h2 := hperm.mem_iff.mp h
  obtain ⟨e, he, rfl⟩ := List.mem_map.mp h2
  have hf := List.mem_filter.mp he
  exact ⟨e, hf.1, rfl, by simpa using hf.2⟩

theorem C3_witness :
    ∃ e, e ∈ ({ delay := none, ids := [{ key := 5, id := { val := 0 } }] } : TimerWorker).ids ∧
      e.id = { val := 0 } ∧ e.key ≤ 10 :=
  C3_announced_only_when_due 10 { delay := none, ids := [{ key := 5, id := { val := 0 } }] }
    { msgs := [], closed := false } { val := 0 } (by decide)

/-- Claim C4.  While a sleep is active (its Delay has not yet completed),
ingesting a request resets the Delay exactly when the new deadline is
strictly earlier than the sleep's armed deadline (the timestamp stored with
the Delay): the Delay is re-armed to complete after the duration from now
to the new deadline; a new deadline equal to or later than the armed one
leaves the sleep unchanged. -/
theorem C4_reset_iff_strictly_earlier (now earliest fireAt ts : Nat) (i : TimerId)
    (heap : List TimerIdWithTimestamp) (rest : List (TimerId × Nat)) (closed : Bool)
    (hlive : now < fireAt) :
    (poll now { delay := some (earliest, fireAt), ids := heap }
        { msgs := (i, ts) :: rest, closed := closed }).worker.delay =
      if ts < earliest then some (earliest, now + timestamp_from_now now ts)
      else some (earliest, fireAt) := by
  have hs : sleepCheck now (some (earliest, fireAt)) = some (earliest, fireAt) := by
    show (if fireAt ≤ now then none else some (earliest, fireAt)) = some (earliest, fireAt)
    have hnot : ¬ fireAt ≤ now := by omega
    rw [if_neg hnot]
  have hkey : (poll now { delay := some (earliest, fireAt), ids := heap }
      { msgs := (i, ts) :: rest, closed := closed }).worker.delay =
      (if 0 < tsDiff earliest ts then some (earliest, now + timestamp_from_now now ts)
       else some (earliest, fireAt)) := by
    simp [poll, ingest, armPhase, hs]
  rw [hkey]
  by_cases hlt : ts < earliest
  · have hc : 0 < tsDiff earliest ts := by unfold tsDiff; omega
    rw [if_pos hc, if_pos hlt]
  · have hc : ¬ 0 < tsDiff earliest ts := by unfold tsDiff; omega
    rw [if_neg hc, if_neg hlt]

theorem C4_witness :
    (poll 0 { delay := some (1000, 1000), ids := [] }
        { msgs := [({ val := 1 }, 100)], closed := false }).worker.delay =
      if (100 : Nat) < 1000 then some (1000, 0 + timestamp_from_now 0 100)
      else some (1000, 1000) :=
  C4_reset_iff_strictly_earlier 0 1000 1000 100 { val := 1 } [] [] false (by decide)

/-- Claim C5.  `start_timer(duration)` returns the handle's current counter
value as the id, sends exactly the pair of that id and the deadline
`now + duration` on the request channel, and bumps the counter — a pure
state transition plus one message, with no waiting on the worker. -/
theorem C5_start_timer_contract (api : TimerApi) (now : Nat) (duration : Nat) :
    (start_timer api now duration).ret = api.next_id ∧
    (start_timer api now duration).sent = (api.next_id, tsAdd now duration) ∧
    (start_timer api now duration).api = { next_id := { val := api.next_id.val + 1 } } :=
  ⟨rfl, rfl, rfl⟩

end OffchainTimer

namespace OffchainTimer

theorem apiAfter_next_id (f : Nat → Nat × Nat) : ∀ n, (apiAfter f n).next_id = { val := n } := by
  intro n
  induction n with
  | zero => rfl
  | succ n ih => simp [apiAfter, start_timer, ih]

/-- Claim C6.  Whatever clock readings and durations the calls use, the
`n`-th `start_timer` call on a handle created by `timer` (counting from 0)
returns `TimerId(n)` — equivalently, the `n`-th call counting from 1
returns `TimerId(n-1)` — so issued ids start at 0, are strictly increasing
across successive calls, and are never reused. -/
theorem C6_nth_call_returns_counter (f : Nat → Nat × Nat) (n : Nat) :
    nthTimerId f n = { val := n } ∧
    ∀ m, m < n → (nthTimerId f m).val < (nthTimerId f n).val := by
  have h : ∀ k, nthTimerId f k = { val := k } := by
    intro k
    show (start_timer (apiAfter f k) (f k).1 (f k).2).ret = { val := k }
    rw [show (start_timer (apiAfter f k) (f k).1 (f k).2).ret = (apiAfter f k).next_id from rfl,
      apiAfter_next_id]
  refine ⟨h n, fun m hm => ?_⟩
  rw [h m, h n]
  exact hm

theorem C6_witness :
    nthTimerId (fun k => (k, k)) 2 = { val := 2 } ∧
    (nthTimerId (fun k => (k, k)) 1).val < (nthTimerId (fun k => (k, k)) 2).val :=
  ⟨(C6_nth_call_returns_counter (fun k => (k, k)) 2).1,
    (C6_nth_call_returns_counter (fun k => (k, k)) 2).2 1 (by decide)⟩

/-- Claim C7.  A request whose deadline is already at or before the current
time is announced on the very next drive cycle: the cycle that ingests it
requests an immediate self-wake, and the following cycle (at any time not
earlier than the first) pops the entry in its drain phase and announces the
id — no full sleep period is waited out. -/
theorem C7_due_request_announced_next_cycle (now1 now2 : Nat) (s : TimerWorker)
    (i : TimerId) (d : Nat) (rest : List (TimerId × Nat)) (closed : Bool)
    (hdue : d ≤ now1) (hmono : now1 ≤ now2) :
    (poll now1 s { msgs := (i, d) :: rest, closed := closed }).woke = true ∧
    i ∈ (poll now2 (poll now1 s { msgs := (i, d) :: rest, closed := closed }).worker
          (poll now1 s { msgs := (i, d) :: rest, closed := closed }).chan).announced := by
  have hids : (poll now1 s { msgs := (i, d) :: rest, closed := closed }).worker.ids
      = { key := d, id := i } :: (drainDue now1 s.ids).2 := by
    simp [poll, ingest]
  have hwoke : (poll now1 s { msgs := (i, d) :: rest, closed := closed }).woke = true := by
    simp [poll, ingest]
  refine ⟨hwoke, ?_⟩
  have hmem : ({ key := d, id := i } : TimerIdWithTimestamp) ∈
      (poll now1 s { msgs := (i, d) :: rest, closed := closed }).worker.ids := by
    rw [hids]
    exact List.mem_cons_self _ _
  have hann2 : (poll now2 (poll now1 s { msgs := (i, d) :: rest, closed := closed }).worker
      (poll now1 s { msgs := (i, d) :: rest, closed := closed }).chan).announced
      = (drainDue now2 (poll now1 s { msgs := (i, d) :: rest, closed := closed }).worker.ids).1 := by
    simp [poll]
  rw [hann2]
  have hperm := drainDue_fst_perm now2
    (poll now1 s { msgs := (i, d) :: rest, closed := closed }).worker.ids
  apply hperm.mem_iff.mpr
  apply List.mem_map.mpr
  refine ⟨{ key := d, id := i }, List.mem_filter.mpr ⟨hmem, ?_⟩, rfl⟩
  simp only [decide_eq_true_eq]
  omega

theorem C7_witness :
    (poll 5 { delay := none, ids := [] }
        { msgs := [({ val := 0 }, 3)], closed := false }).woke = true ∧
    { val := 0 } ∈ (poll 5 (poll 5 { delay := none, ids := [] }
          { msgs := [({ val := 0 }, 3)], closed := false }).worker
        (poll 5 { delay := none, ids := [] }
          { msgs := [({ val := 0 }, 3)], closed := false }).chan).announced :=
  C7_due_request_announced_next_cycle 5 5 { delay := none, ids := [] } { val := 0 } 3 [] false
    (by decide) (by decide)

end OffchainTimer

namespace OffchainTimer

/-- Claim C8.  A drive cycle returns `Poll::Ready(())` exactly when the
request channel is empty and permanently closed; in that terminal cycle the
entries left in the priority queue (those not yet due, which the drain
phase did not announce) have ids that were not sent to the announcement
sink, assuming the queued ids are pairwise distinct. -/
theorem C8_terminal_iff_channel_closed (now : Nat) (s : TimerWorker) (ch : Chan)
    (hnodup : (s.ids.map TimerIdWithTimestamp.id).Nodup) :
    ((poll now s ch).ready = true ↔ ch.msgs = [] ∧ ch.closed = true) ∧
    (∀ e ∈ (poll now s ch).worker.ids, (poll now s ch).ready = true →
      e.id ∉ (poll now s ch).announced) := by
  have hann := drainDue_fst_perm now s.ids
  have hrem := drainDue_snd_perm now s.ids
  have hsplit : (((s.ids.filter (fun x => decide (x.key ≤ now))).map TimerIdWithTimestamp.id) ++
      ((s.ids.filter (fun x => !decide (x.key ≤ now))).map TimerIdWithTimestamp.id)).Perm
      (s.ids.map TimerIdWithTimestamp.id) := by
    have h0 := List.filter_append_perm (fun x => decide (x.key ≤ now)) s.ids
    have h1 := h0.map TimerIdWithTimestamp.id
    rwa [List.map_append] at h1
  have hnodup2 := hsplit.symm.nodup hnodup
  have hdisj := (List.nodup_append.mp hnodup2).2.2
  have hdisj2 : ∀ e ∈ (drainDue now s.ids).2, e.id ∉ (drainDue now s.ids).1 := by
    intro e he hid
    have h1 : e.id ∈ (s.ids.filter (fun x => decide (x.key ≤ now))).map TimerIdWithTimestamp.id :=
      hann.mem_iff.mp hid
    have h2 : e ∈ s.ids.filter (fun x => !decide (x.key ≤ now)) := hrem.mem_iff.mp he
    exact hdisj h1 (List.mem_map.mpr ⟨e, h2, rfl⟩)
  constructor
  · cases hmsgs : ch.msgs with
    | cons m ms =>
      obtain ⟨mi, mt⟩ := m
      simp [poll, ingest, hmsgs]
    | nil =>
      cases hclosed : ch.closed
      · simp [poll, ingest, hmsgs, hclosed]
      · simp [poll, ingest, hmsgs, hclosed]
  · intro e he hready
    have hannp : (poll now s ch).announced = (drainDue now s.ids).1 := by
      simp [poll]
    cases hmsgs : ch.msgs with
    | cons m ms =>
      obtain ⟨mi, mt⟩ := m
      rw [show (poll now s ch).ready = false from by simp [poll, ingest, hmsgs]] at hready
      exact absurd hready (by simp)
    | nil =>
      have hworker : (poll now s ch).worker.ids = (drainDue now s.ids).2 := by
        cases hclosed : ch.closed
        · simp [poll, ingest, hmsgs, hclosed]
        · simp [poll, ingest, hmsgs, hclosed]
      rw [hworker] at he
      rw [hannp]
      exact hdisj2 e he

theorem C8_witness :
    (poll 0 { delay := none, ids := [{ key := 10, id := { val := 0 } }] }
        { msgs := [], closed := true }).ready = true ∧
    ({ val := 0 } : TimerId) ∉ (poll 0 { delay := none, ids := [{ key := 10, id := { val := 0 } }] }
        { msgs := [], closed := true }).announced := by
  have h := C8_terminal_iff_channel_closed 0
    { delay := none, ids := [{ key := 10, id := { val := 0 } }] }
    { msgs := [], closed := true } (by decide)
  exact ⟨h.1.mpr ⟨rfl, rfl⟩,
    h.2 { key := 10, id := { val := 0 } } (by decide) (h.1.mpr ⟨rfl, rfl⟩)⟩

/-- Claim C9.  If every queued entry carries the same deadline `dl`, that
deadline has been reached, and the queued ids are pairwise distinct, then
the drive cycle announces each of those ids exactly once — no entry is
omitted because its heap entry compares equal to another, and none is
announced twice. -/
theorem C9_equal_deadlines_each_announced_once (now dl : Nat) (s : TimerWorker) (ch : Chan)
    (hall : ∀ e ∈ s.ids, e.key = dl) (hdue : dl ≤ now)
    (hnodup : (s.ids.map TimerIdWithTimestamp.id).Nodup) :
    ∀ e ∈ s.ids, ((poll now s ch).announced).count e.id = 1 := by
  intro e he
  have hannp : (poll now s ch).announced = (drainDue now s.ids).1 := by
    simp [poll]
  rw [hannp]
  have hfilter : s.ids.filter (fun x => decide (x.key ≤ now)) = s.ids := by
    rw [List.filter_eq_self]
    intro x hx
    simp [hall x hx, hdue]
  have hperm := drainDue_fst_perm now s.ids
  rw [hfilter] at hperm
  rw [hperm.count_eq]
  exact List.count_eq_one_of_mem hnodup (List.mem_map.mpr ⟨e, he, rfl⟩)

theorem C9_witness :
    ((poll 10
        { delay := none,
          ids := [{ key := 7, id := { val := 0 } }, { key := 7, id := { val := 1 } }] }
        { msgs := [], closed := false }).announced).count { val := 0 } = 1 :=
  C9_equal_deadlines_each_announced_once 10 7
    { delay := none, ids := [{ key := 7, id := { val := 0 } }, { key := 7, id := { val := 1 } }] }
    { msgs := [], closed := false } (by decide) (by decide) (by decide)
    { key := 7, id := { val := 0 } } (by decide)

/-- Claim C10.  The priority queue's comparisons on `TimerIdWithTimestamp`
return exactly the comparison of the `key` deadlines: they are invariant
under replacing the ids, and two entries with equal deadlines but different
ids compare as equal (so the relative pop order of equal-deadline entries
cannot be determined by id). -/
theorem C10_comparisons_use_only_deadlines :
    (∀ a b : TimerIdWithTimestamp,
        TimerIdWithTimestamp.cmp a b = compare a.key b.key ∧
        TimerIdWithTimestamp.beq a b = (a.key == b.key) ∧
        TimerIdWithTimestamp.pcmp a b = some (compare a.key b.key)) ∧
    (∀ (a b : TimerIdWithTimestamp) (i j : TimerId),
        TimerIdWithTimestamp.cmp { key := a.key, id := i } { key := b.key, id := j }
          = TimerIdWithTimestamp.cmp a b ∧
        TimerIdWithTimestamp.beq { key := a.key, id := i } { key := b.key, id := j }
          = TimerIdWithTimestamp.beq a b) ∧
    (∀ a b : TimerIdWithTimestamp, a.key = b.key →
        TimerIdWithTimestamp.beq a b = true ∧
        TimerIdWithTimestamp.cmp a b = Ordering.eq) := by
  refine ⟨fun a b => ⟨rfl, rfl, rfl⟩, fun a b i j => ⟨rfl, rfl⟩, fun a b h => ⟨?_, ?_⟩⟩
  · simp [TimerIdWithTimestamp.beq, h]
  · simp [TimerIdWithTimestamp.cmp, h, compare_eq_iff_eq]

theorem C10_witness :
    TimerIdWithTimestamp.beq { key := 5, id := { val := 0 } } { key := 5, id := { val := 1 } } = true ∧
    TimerIdWithTimestamp.cmp { key := 5, id := { val := 0 } } { key := 5, id := { val := 1 } } = Ordering.eq :=
  C10_comparisons_use_only_deadlines.2.2
    { key := 5, id := { val := 0 } } { key := 5, id := { val := 1 } } rfl

end OffchainTimer
